import Mathlib

/-
  Verification of the cache-consistency / category-tree subsystem of the
  e-commerce product-catalog service.  The definitions below are a shallow
  embedding of the Python source: the relational store is a list of rows,
  every service method becomes a pure function from the old state to the new
  state (or an Except value for methods that raise HTTPException), and the
  asynchronous cache client becomes an explicit key/value state.  Loops that
  Python runs unboundedly are given a fuel argument; where the loop provably
  terminates we show the result is independent of any sufficiently large
  fuel.
-/

namespace ECommerce

/-- Category row as stored in the categories table
(src/app/models/category.py).  The ORM model names the ordering column
sort_order while every service-layer access spells it display_order; we use
the service-layer spelling for that single integer column.  Only the columns
the verified subsystem reads are carried. -/
structure Category where
  id : String
  name : String
  slug : String
  parent_id : Option String
  display_order : Int
  is_active : Bool
  is_featured : Bool
  product_count : Int
  view_count : Int
deriving Repr, DecidableEq

/-- Category.level property (src/app/models/category.py lines 141-160): it
returns 0 for a root and, because the loop body breaks after one iteration,
1 for every category that has a parent, regardless of actual depth. -/
def Category.level (c : Category) : Int :=
  match c.parent_id with
  | none => 0
  | some _ => 1

/-- Brand row (src/app/models/brand.py); the float rating column is modelled
as a rational number. -/
structure Brand where
  id : String
  name : String
  product_count : Int
  rating : ℚ
  review_count : Int
deriving Repr, DecidableEq

/-- Error kinds raised by the service layer: HTTPException with status 404
becomes notFound, HTTPException with status 400 becomes validation. -/
inductive ApiError where
  | notFound (detail : String)
  | validation (detail : String)
deriving Repr, DecidableEq

/-- Database fetch by primary key:
select(Category).where(Category.id == category_id) with scalar_one_or_none. -/
def lookup (db : List Category) (category_id : String) : Option Category :=
  db.find? (fun c => c.id == category_id)

/-- One upward step in the parent graph:
select(Category.parent_id).where(Category.id == current_id), converted by the
source to str(parent_result) if parent_result else None. -/
def stepParent (db : List Category) (current_id : String) : Option String :=
  (lookup db current_id).bind (fun c => c.parent_id)

/-- Loop body of CategoryService.would-create-circular-reference
(src/app/services/category_service.py lines 676-703): walk upward from the
proposed new parent, keeping a visited set; leave the loop on a missing
current id or on the first repeated id, and answer true as soon as the moved
category's id is seen.  The fuel argument only makes the recursion
structural; the source loop has no depth cap, and the stabilisation theorem
below shows any fuel of at least db.length + 2 gives the same answer. -/
def wccrGo (db : List Category) (category_id : String) :
    Nat → Option String → List String → Bool
  | _, none, _ => false
  | 0, some _, _ => false
  | fuel + 1, some current, visited =>
    if current ∈ visited then false
    else if current = category_id then true
    else wccrGo db category_id fuel (stepParent db current) (current :: visited)

/-- CategoryService.would-create-circular-reference with its loop run to
completion (fuel db.length + 2 always suffices, as proved below). -/
def would_create_circular_reference (db : List Category)
    (category_id new_parent_id : String) : Bool :=
  wccrGo db category_id (db.length + 2) (some new_parent_id) []

/-- The sequence of ids an upward parent walk visits, starting from a given
current id with a given set of already-visited ids: the walk stops at a
missing row, at a root, or just before the first repeated id. -/
def futureWalk (db : List Category) :
    Nat → Option String → List String → List String
  | _, none, _ => []
  | 0, some _, _ => []
  | fuel + 1, some current, visited =>
    if current ∈ visited then []
    else current :: futureWalk db fuel (stepParent db current) (current :: visited)

/-- The full upward walk from a starting id: the ids reachable from it by
following parent_id pointers, in visiting order, cut at the first repeat. -/
def upwardWalk (db : List Category) (start : String) : List String :=
  futureWalk db (db.length + 2) (some start) []

/-- Iterated parent pointer: the id reached after k upward steps. -/
def chainIter (db : List Category) : Nat → String → Option String
  | 0, x => some x
  | k + 1, x => (chainIter db k x).bind (stepParent db)

/-- Loop of CategoryService.get_category_breadcrumbs
(src/app/services/category_service.py lines 426-449): prepend the current
node, then follow its parent_id through self.get_category (resolved here
against the store; a populated cache returns the same row).  The source loop
has no depth cap, so we expose the number of iterations as fuel and return
none while the loop is still running after that many iterations. -/
def breadcrumbLoop (db : List Category) :
    Option Category → List Category → Nat → Option (List Category)
  | none, acc, _ => some acc
  | some _, _, 0 => none
  | some current, acc, fuel + 1 =>
    breadcrumbLoop db
      (match current.parent_id with
       | some pid => lookup db pid
       | none => none)
      (current :: acc) fuel

/-- CategoryService.get_category_breadcrumbs: an unknown id yields an empty
trail, otherwise the upward loop runs; a some result is the finished
breadcrumb list (root first), a none result means the loop had not finished
within the given number of iterations. -/
def get_category_breadcrumbs (db : List Category) (category_id : String)
    (fuel : Nat) : Option (List Category) :=
  match lookup db category_id with
  | none => some []
  | some c => breadcrumbLoop db (some c) [] fuel

/-- A two-row store whose parent pointers form a cycle: a's parent is b and
b's parent is a.  This is exactly the pre-existing data corruption the spec
requires the breadcrumb walk to survive. -/
def cycA : Category :=
  { id := "a", name := "A", slug := "a", parent_id := some "b",
    display_order := 0, is_active := true, is_featured := false,
    product_count := 0, view_count := 0 }

/-- Companion row of the two-row parent cycle. -/
def cycB : Category :=
  { id := "b", name := "B", slug := "b", parent_id := some "a",
    display_order := 0, is_active := true, is_featured := false,
    product_count := 0, view_count := 0 }

/-- The cyclic store used as the failing input for the breadcrumb claim. -/
def cycDb : List Category := [cycA, cycB]

lemma breadcrumbLoop_cyc : ∀ (fuel : Nat) (acc : List Category),
    breadcrumbLoop cycDb (some cycA) acc fuel = none ∧
    breadcrumbLoop cycDb (some cycB) acc fuel = none := by
  intro fuel
  induction fuel with
  | zero => intro acc; exact ⟨rfl, rfl⟩
  | succ n ih =>
    intro acc
    constructor
    · have h1 : breadcrumbLoop cycDb (some cycA) acc (n + 1)
          = breadcrumbLoop cycDb (some cycB) (cycA :: acc) n := rfl
      rw [h1]
      exact (ih _).2
    · have h2 : breadcrumbLoop cycDb (some cycB) acc (n + 1)
          = breadcrumbLoop cycDb (some cycA) (cycB :: acc) n := rfl
      rw [h2]
      exact (ih _).1

/-- C4: the claim says the breadcrumb walk is capped at a fixed maximum depth
and that exceeding the cap is surfaced as a data-integrity error.  The source
loop has no cap at all: on the two-row parent cycle the walk from category a
is still running after any number of iterations (in particular far beyond any
fixed cap such as 50) and never terminates, with or without an error. -/
theorem c4_breadcrumbs_uncapped_on_cycle :
    ∀ fuel : Nat, get_category_breadcrumbs cycDb "a" fuel = none := by
  intro fuel
  have h : get_category_breadcrumbs cycDb "a" fuel
      = breadcrumbLoop cycDb (some cycA) [] fuel := rfl
  rw [h]
  exact (breadcrumbLoop_cyc fuel []).1

lemma wccrGo_fuel_congr (db : List Category) (category_id : String)
    (S : List String) (hstep : ∀ c p, stepParent db c = some p → p ∈ S) :
    ∀ (f g : Nat) (cur : Option String) (v : List String),
      (∀ c, cur = some c → c ∈ S) →
      (S.toFinset \ v.toFinset).card < f →
      (S.toFinset \ v.toFinset).card < g →
      wccrGo db category_id f cur v = wccrGo db category_id g cur v := by
  intro f
  induction f with
  | zero =>
    intro g cur v _ hf _
    exact absurd hf (by omega)
  | succ f ih =>
    intro g cur v hcur hf hg
    cases cur with
    | none =>
      cases g with
      | zero => rfl
      | succ g => rfl
    | some c =>
      cases g with
      | zero => exact absurd hg (by omega)
      | succ g =>
        simp only [wccrGo]
        by_cases hcv : c ∈ v
        · simp [hcv]
        · by_cases hc : c = category_id
          · simp [hcv, hc]
          · simp only [if_neg hcv, if_neg hc]
            have hcS : c ∈ S := hcur c rfl
            have hdec : (S.toFinset \ (c :: v).toFinset).card
                < (S.toFinset \ v.toFinset).card := by
              apply Finset.card_lt_card
              constructor
              · intro x hx
                rw [Finset.mem_sdiff] at hx ⊢
                refine ⟨hx.1, fun hxv => hx.2 ?_⟩
                rw [List.toFinset_cons, Finset.mem_insert]
                exact Or.inr hxv
              · intro hsub
                have hcmem : c ∈ S.toFinset \ v.toFinset := by
                  rw [Finset.mem_sdiff]
                  exact ⟨List.mem_toFinset.mpr hcS, fun h => hcv (List.mem_toFinset.mp h)⟩
                have := hsub hcmem
                rw [Finset.mem_sdiff, List.toFinset_cons] at this
                exact this.2 (Finset.mem_insert_self _ _)
            apply ih
            · intro p hp
              exact hstep c p hp
            · omega
            · omega

lemma wccr_fuel_stable (db : List Category) (category_id b : String)
    (g : Nat) (hg : db.length + 2 ≤ g) :
    wccrGo db category_id g (some b) []
      = would_create_circular_reference db category_id b := by
  have hcard : ((b :: db.filterMap (fun c => c.parent_id)).toFinset
      \ ([] : List String).toFinset).card < db.length + 2 := by
    have h1 : ((b :: db.filterMap (fun c => c.parent_id)).toFinset
        \ ([] : List String).toFinset).card
        ≤ (b :: db.filterMap (fun c => c.parent_id)).length := by
      calc ((b :: db.filterMap (fun c => c.parent_id)).toFinset
          \ ([] : List String).toFinset).card
          ≤ (b :: db.filterMap (fun c => c.parent_id)).toFinset.card :=
            Finset.card_le_card (Finset.sdiff_subset)
        _ ≤ _ := List.toFinset_card_le _
    have h2 : (db.filterMap (fun c => c.parent_id)).length ≤ db.length :=
      List.length_filterMap_le _ _
    simp only [List.length_cons] at h1
    omega
  apply wccrGo_fuel_congr db category_id
    (b :: db.filterMap (fun c => c.parent_id))
  · intro c p hp
    unfold stepParent at hp
    rcases Option.bind_eq_some.mp hp with ⟨q, hq, hqp⟩
    have hqdb : q ∈ db := List.mem_of_find?_eq_some hq
    exact List.mem_cons_of_mem _ (List.mem_filterMap.mpr ⟨q, hqdb, hqp⟩)
  · intro c hc
    cases hc
    exact List.mem_cons_self _ _
  · omega
  · exact hcard

lemma wccrGo_eq_mem_futureWalk (db : List Category) (category_id : String) :
    ∀ (f : Nat) (cur : Option String) (v : List String), category_id ∉ v →
      (wccrGo db category_id f cur v = true
        ↔ category_id ∈ futureWalk db f cur v) := by
  intro f
  induction f with
  | zero =>
    intro cur v _
    cases cur <;> simp [wccrGo, futureWalk]
  | succ f ih =>
    intro cur v hv
    cases cur with
    | none => simp [wccrGo, futureWalk]
    | some c =>
      by_cases hcv : c ∈ v
      · simp [wccrGo, futureWalk, hcv]
      · by_cases hc : c = category_id
        · subst hc
          simp [wccrGo, futureWalk, hcv]
        · have hne : category_id ≠ c := fun h => hc h.symm
          simp only [wccrGo, futureWalk, if_neg hcv, if_neg hc, List.mem_cons]
          rw [ih (stepParent db c) (c :: v)
              (by simp [List.mem_cons, hv, hne])]
          constructor
          · intro h; exact Or.inr h
          · rintro (h | h)
            · exact absurd h hne
            · exact h

/-- C10: the circular-reference check used by move and update terminates on
every finite stored parent graph with no fixed depth cap (every fuel of at
least db.length + 2 yields the same verdict, so the visited-set loop always
halts), and it answers true exactly when the upward walk from the proposed
new parent, which stops at a root, a missing row, or the first repeated id,
reaches the moved category's id. -/
theorem c10_circular_check_terminates (db : List Category)
    (category_id new_parent_id : String) :
    (∀ extra : Nat,
      wccrGo db category_id (db.length + 2 + extra) (some new_parent_id) []
        = would_create_circular_reference db category_id new_parent_id)
    ∧ (would_create_circular_reference db category_id new_parent_id = true
        ↔ category_id ∈ upwardWalk db new_parent_id) := by
  constructor
  · intro extra
    exact wccr_fuel_stable db category_id new_parent_id _ (by omega)
  · exact wccrGo_eq_mem_futureWalk db category_id _ _ _ (by simp)

/-- Lexicographic code-point comparison of character lists, exactly the
comparison Python applies to strings. -/
def charListLe : List Char → List Char → Bool
  | [], _ => true
  | _ :: _, [] => false
  | a :: as, b :: bs =>
    if a.toNat < b.toNat then true
    else if b.toNat < a.toNat then false
    else charListLe as bs

/-- Python string comparison, applied to the underlying character lists. -/
def pyStrLe (a b : String) : Bool := charListLe a.data b.data

lemma charListLe_total : ∀ as bs : List Char,
    charListLe as bs = true ∨ charListLe bs as = true := by
  intro as
  induction as with
  | nil => intro bs; left; rfl
  | cons a as ih =>
    intro bs
    cases bs with
    | nil => right; rfl
    | cons b bs =>
      rcases Nat.lt_trichotomy a.toNat b.toNat with h | h | h
      · left
        simp [charListLe, h]
      · rcases ih bs with h2 | h2
        · left
          simp [charListLe, h, h2]
        · right
          simp [charListLe, h, h2]
      · right
        simp [charListLe, h]

lemma charListLe_trans : ∀ as bs cs : List Char,
    charListLe as bs = true → charListLe bs cs = true →
    charListLe as cs = true := by
  intro as
  induction as with
  | nil => intro bs cs _ _; rfl
  | cons a as ih =>
    intro bs cs hab hbc
    cases bs with
    | nil => exact absurd hab (by simp [charListLe])
    | cons b bs =>
      cases cs with
      | nil => exact absurd hbc (by simp [charListLe])
      | cons c cs =>
        simp only [charListLe] at hab hbc ⊢
        by_cases h1 : a.toNat < b.toNat <;>
          by_cases h2 : b.toNat < a.toNat <;>
          by_cases h3 : b.toNat < c.toNat <;>
          by_cases h4 : c.toNat < b.toNat <;>
          by_cases h5 : a.toNat < c.toNat <;>
          by_cases h6 : c.toNat < a.toNat <;>
          simp_all <;>
          first
          | omega
          | (exact Or.inr (ih bs cs hab hbc))

/-- Row order produced by order_by(Category.display_order, Category.name):
ascending display_order with name as tiebreak (string comparison as Python
performs it, by code points). -/
def catOrd (a b : Category) : Prop :=
  a.display_order < b.display_order
    ∨ (a.display_order = b.display_order ∧ pyStrLe a.name b.name = true)

instance : DecidableRel catOrd := fun a b => by
  unfold catOrd
  infer_instance

/-- CategoryTree response node (src/app/schemas/category.py lines 213-225).
The schema carries id, name, slug, level, product_count, is_active and
children; it has no display_order field. -/
inductive CategoryTree where
  | node (id name slug : String) (level : Int) (product_count : Int)
      (is_active : Bool) (children : List CategoryTree)

/-- Identifier carried by a tree node. -/
def CategoryTree.id : CategoryTree → String
  | .node i _ _ _ _ _ _ => i

/-- Name carried by a tree node. -/
def CategoryTree.name : CategoryTree → String
  | .node _ n _ _ _ _ _ => n

/-- Child list carried by a tree node. -/
def CategoryTree.children : CategoryTree → List CategoryTree
  | .node _ _ _ _ _ _ cs => cs

/-- Sort key applied to assembled children: the source asks for
(x.display_order if hasattr(x, 'display_order') else 0, x.name), and since
CategoryTree objects have no display_order attribute the key degrades to
(0, x.name), i.e. the children end up ordered by name alone. -/
def treeNameLe (a b : CategoryTree) : Prop := pyStrLe a.name b.name = true

instance : DecidableRel treeNameLe := fun a b => by
  unfold treeNameLe
  infer_instance

instance : IsTotal CategoryTree treeNameLe :=
  ⟨fun a b => charListLe_total a.name.data b.name.data⟩

instance : IsTrans CategoryTree treeNameLe :=
  ⟨fun _ _ _ hab hbc => charListLe_trans _ _ _ hab hbc⟩

/-- Python dict comprehension keyed by str(cat.id): each key sits at its
first insertion position and holds the value of its last binding.  The fuel
equals the list length, which always suffices. -/
def dictByIdGo : Nat → List Category → List Category
  | _, [] => []
  | 0, _ :: _ => []
  | fuel + 1, c :: rest =>
    ((c :: rest).filter (fun d => d.id == c.id)).getLastD c ::
      dictByIdGo fuel (rest.filter (fun d => !(d.id == c.id)))

/-- The category_dict of CategoryService.get_category_tree, as the list of
its values in key order. -/
def dictById (l : List Category) : List Category := dictByIdGo l.length l

/-- CategoryService.build-category-tree-node
(src/app/services/category_service.py lines 645-674): scan the dict for rows
whose parent_id equals this node's id, recurse into each, then sort the
assembled child nodes with the degraded (0, name) key.  Fuel only makes the
recursion structural; build_tree passes the row-count, which suffices for a
forest-shaped input. -/
def build_category_tree_node (category_dict : List Category) :
    Nat → Category → CategoryTree
  | 0, category =>
    .node category.id category.name category.slug category.level
      category.product_count category.is_active []
  | fuel + 1, category =>
    let children := (category_dict.filter
        (fun c => c.parent_id == some category.id)).map
        (build_category_tree_node category_dict fuel)
    .node category.id category.name category.slug category.level
      category.product_count category.is_active
      (List.insertionSort treeNameLe children)

/-- Rows the tree query returns: optionally restricted to active rows, then
order_by(display_order, name); insertionSort is a stable sort like the
database sort. -/
def fetch_all_categories (db : List Category) (active_only : Bool) :
    List Category :=
  List.insertionSort catOrd
    (if active_only then db.filter (fun c => c.is_active) else db)

/-- Pure part of CategoryService.get_category_tree
(src/app/services/category_service.py lines 400-418): index the fetched rows
by id, then build one tree per row whose parent_id is None, in fetched
order. -/
def build_tree (db : List Category) (active_only : Bool) :
    List CategoryTree :=
  let all_categories := fetch_all_categories db active_only
  let category_dict := dictById all_categories
  (all_categories.filter (fun c => c.parent_id.isNone)).map
    (build_category_tree_node category_dict all_categories.length)

mutual

/-- Ids of a tree in preorder. -/
def flattenTree : CategoryTree → List String
  | .node i _ _ _ _ _ children => i :: flattenTrees children

/-- Ids of a forest in preorder. -/
def flattenTrees : List CategoryTree → List String
  | [] => []
  | t :: ts => flattenTree t ++ flattenTrees ts

end

/-- Boolean check that a list of tree nodes is ordered by name (adjacent
pairs only, which under transitivity is full sortedness). -/
def listSortedByName : List CategoryTree → Bool
  | [] => true
  | [_] => true
  | a :: b :: rest => decide (treeNameLe a b) && listSortedByName (b :: rest)

mutual

/-- Every children list anywhere inside the tree is sorted by name. -/
def treeChildrenSorted : CategoryTree → Bool
  | .node _ _ _ _ _ _ children =>
    listSortedByName children && treesChildrenSorted children

/-- Every children list anywhere inside the forest is sorted by name. -/
def treesChildrenSorted : List CategoryTree → Bool
  | [] => true
  | t :: ts => treeChildrenSorted t && treesChildrenSorted ts

end

/-- A value the cache can hold: a serialized entity snapshot or a serialized
computed tree. -/
inductive CacheVal where
  | entity (c : Category)
  | tree (t : List CategoryTree)

/-- State of the Redis-backed CacheService: its key/value entries plus a
failing flag that models the backend raising on every call. -/
structure CacheState where
  entries : List (String × CacheVal)
  failing : Bool

/-- CacheService.get (src/app/services/cache_service.py lines 35-51): every
backend exception is caught and reported as a miss (None). -/
def cacheRawGet (cs : CacheState) (key : String) : Option CacheVal :=
  if cs.failing then none
  else (cs.entries.find? (fun e => e.fst == key)).map (fun e => e.snd)

/-- CacheService.set (src/app/services/cache_service.py lines 53-76): every
backend exception is caught, leaving the store unchanged. -/
def cacheRawSet (cs : CacheState) (key : String) (v : CacheVal) : CacheState :=
  if cs.failing then cs
  else { cs with entries :=
    (key, v) :: cs.entries.filter (fun e => !(e.fst == key)) }

/-- CacheService.delete (src/app/services/cache_service.py lines 78-92):
every backend exception is caught, leaving the store unchanged. -/
def cacheRawDelete (cs : CacheState) (key : String) : CacheState :=
  if cs.failing then cs
  else { cs with entries := cs.entries.filter (fun e => !(e.fst == key)) }

/-- Modelled from the spec: CategoryService calls cache.get_category, which
CacheService does not define anywhere in the source; sections 4.1 and 6 of
the specification define the per-entity read as a cache get of the key
entity:category:id, with every backend error surfacing as a miss exactly as
in CacheService.get. -/
def cache_get_category (cs : CacheState) (category_id : String) :
    Option Category :=
  match cacheRawGet cs ("entity:category:" ++ category_id) with
  | some (.entity c) => some c
  | _ => none

/-- Modelled from the spec: CategoryService calls cache.set_category, which
CacheService does not define anywhere in the source; the specification
defines it as a cache set of the entity snapshot under entity:category:id. -/
def cache_set_category (cs : CacheState) (c : Category) : CacheState :=
  cacheRawSet cs ("entity:category:" ++ c.id) (.entity c)

/-- Modelled from the spec: CategoryService calls cache.delete_category,
which CacheService does not define anywhere in the source; the specification
defines it as a cache delete of the key entity:category:id. -/
def cache_delete_category (cs : CacheState) (category_id : String) :
    CacheState :=
  cacheRawDelete cs ("entity:category:" ++ category_id)

/-- Combined state seen by CategoryService: the relational store plus the
optional cache client (the service treats self.cache as optional). -/
structure Sys where
  db : List Category
  cache : Option CacheState

/-- Store-side view-count bump used by the read path
(CategoryService.increment-view-count). -/
def bump_view_count (db : List Category) (category_id : String) :
    List Category :=
  db.map (fun c =>
    if c.id == category_id then { c with view_count := c.view_count + 1 }
    else c)

/-- CategoryService.get_category (src/app/services/category_service.py lines
92-130): cache first, fall back to the store on a miss, populate the cache
on a store hit, never cache a miss; the optional view-count increment writes
the store directly. -/
def get_category (s : Sys) (category_id : String) (increment_view : Bool) :
    Option Category × Sys :=
  match s.cache with
  | some cs =>
    match cache_get_category cs category_id with
    | some cached =>
      (some cached,
        { s with db :=
            if increment_view then bump_view_count s.db category_id
            else s.db })
    | none =>
      match lookup s.db category_id with
      | none => (none, s)
      | some category =>
        (some category,
          { db :=
              if increment_view then bump_view_count s.db category_id
              else s.db,
            cache := some (cache_set_category cs category) })
  | none =>
    match lookup s.db category_id with
    | none => (none, s)
    | some category =>
      (some category,
        { s with db :=
            if increment_view then bump_view_count s.db category_id
            else s.db })

/-- Cache key of a whole-tree read: category_tree_active or
category_tree_all depending on the filter. -/
def tree_cache_key (active_only : Bool) : String :=
  "category_tree_" ++ (if active_only then "active" else "all")

/-- CategoryService.get_category_tree (src/app/services/category_service.py
lines 385-424): serve the per-variant key from cache when it holds a
non-empty tree (Python treats a cached empty list as falsy and rebuilds),
otherwise build from the store and cache the result under the same key. -/
def get_category_tree (s : Sys) (active_only : Bool) :
    List CategoryTree × Sys :=
  match s.cache with
  | some cs =>
    match cacheRawGet cs (tree_cache_key active_only) with
    | some (.tree t) =>
      if t.isEmpty then
        let t2 := build_tree s.db active_only
        let cs2 := cacheRawSet cs (tree_cache_key active_only) (.tree t2)
        (t2, { s with cache := some cs2 })
      else (t, s)
    | _ =>
      let t2 := build_tree s.db active_only
      let cs2 := cacheRawSet cs (tree_cache_key active_only) (.tree t2)
      (t2, { s with cache := some cs2 })
  | none => (build_tree s.db active_only, s)

/-- Input schema for create (src/app/schemas/category.py); only the fields
the verified subsystem reads are carried. -/
structure CategoryCreate where
  name : String
  parent_id : Option String
  display_order : Int
  is_active : Bool
  is_featured : Bool

/-- CategoryService.create_category (src/app/services/category_service.py
lines 41-90): validate the optional parent through the cache-first read,
insert the row (the database generates id and slug, taken here as
arguments), cache the new entity, and delete the cache key category_tree —
note the key that tree reads actually use is category_tree_active or
category_tree_all. -/
def create_category (s : Sys) (category_data : CategoryCreate)
    (newId newSlug : String) : Except ApiError (Category × Sys) :=
  let validated : Except ApiError Sys :=
    match category_data.parent_id with
    | some pid =>
      match get_category s pid false with
      | (none, _) => .error (.validation "Parent category not found")
      | (some _, s1) => .ok s1
    | none => .ok s
  match validated with
  | .error e => .error e
  | .ok s1 =>
    let category : Category :=
      { id := newId, name := category_data.name, slug := newSlug,
        parent_id := category_data.parent_id,
        display_order := category_data.display_order,
        is_active := category_data.is_active,
        is_featured := category_data.is_featured,
        product_count := 0, view_count := 0 }
    let db2 := s1.db ++ [category]
    match s1.cache with
    | some cs =>
      .ok (category,
        { db := db2,
          cache := some (cacheRawDelete (cache_set_category cs category)
            "category_tree") })
    | none => .ok (category, { db := db2, cache := none })

/-- Move request schema (src/app/schemas/category.py lines 105-117). -/
structure CategoryMove where
  new_parent_id : Option String
  new_position : Option Int

/-- CategoryService.move_category (src/app/services/category_service.py
lines 262-313): resolve the category (404 when absent), resolve a non-null
new parent (400 when absent), reject when the circular-reference walk finds
the category above the new parent, otherwise write the new parent_id (and
optional position), then delete the entity cache key and the cache key
category_tree — again not the key the tree reads use. -/
def move_category (s : Sys) (category_id : String)
    (move_data : CategoryMove) : Except ApiError (Category × Sys) :=
  match get_category s category_id false with
  | (none, _) => .error (.notFound "Category not found")
  | (some category, s1) =>
    let validated : Except ApiError Sys :=
      match move_data.new_parent_id with
      | some pid =>
        match get_category s1 pid false with
        | (none, _) => .error (.validation "New parent category not found")
        | (some _, s2) =>
          if would_create_circular_reference s2.db category_id pid then
            .error (.validation
              "Cannot move category: would create circular reference")
          else .ok s2
      | none => .ok s1
    match validated with
    | .error e => .error e
    | .ok s2 =>
      let updated : Category :=
        { category with
          parent_id := move_data.new_parent_id,
          display_order := move_data.new_position.getD category.display_order }
      let db2 := s2.db.map (fun c => if c.id == category_id then updated else c)
      match s2.cache with
      | some cs =>
        .ok (updated,
          { db := db2,
            cache := some (cacheRawDelete
              (cache_delete_category cs category_id) "category_tree") })
      | none => .ok (updated, { db := db2, cache := none })

/-- Ids of the rows the ORM cascade sees as children of the given id, the
rows whose parent_id equals it. -/
def childIds (db : List Category) (pid : String) : List String :=
  (db.filter (fun c => c.parent_id == some pid)).map (fun c => c.id)

/-- Level-by-level downward closure of a frontier of ids under childIds,
fuel-bounded; with fuel at least the row count this reaches every
descendant. -/
def subtreeLevels (db : List Category) : Nat → List String → List String
  | 0, frontier => frontier
  | fuel + 1, frontier =>
    frontier ++ subtreeLevels db fuel (frontier.flatMap (childIds db))

/-- The set of ids the ORM delete cascade removes together with the given
row: the row itself and all its descendants.  Category.children is declared
with cascade equal to all, delete-orphan (src/app/models/category.py lines
129-133), so AsyncSession.delete on a category cascades a delete over its
children collection and, loading the deeper collections as it goes,
transitively over the whole subtree. -/
def subtreeIds (db : List Category) (root : String) : List String :=
  subtreeLevels db db.length [root]

/-- CategoryService.delete_category (src/app/services/category_service.py
lines 214-260): 404 when absent; without force, 400 when the row has
children or a positive product_count; with force, first re-parent every
direct child to the deleted row's own parent by a bulk UPDATE.  Then
self.db.delete(category) runs: the category object was fetched through
get_category, which loads the children collection eagerly (selectinload,
lines 113-115), the bulk UPDATE changes the stored rows but does not remove
the loaded objects from that collection, and Category.children carries
cascade equal to all, delete-orphan — so the delete cascades over the
loaded collection and, transitively, over the subtree as it stood when the
category was fetched (re-parenting only rewrote the direct children's
parent pointers, which the level-one cascade does not consult, and deeper
rows are untouched by the UPDATE).  Finally the entity key and the cache
key category_tree are cleared. -/
def delete_category (s : Sys) (category_id : String) (force : Bool) :
    Except ApiError Sys :=
  match get_category s category_id false with
  | (none, _) => .error (.notFound "Category not found")
  | (some category, s1) =>
    let hasChildren := s1.db.any (fun c => c.parent_id == some category_id)
    if hasChildren && !force then
      .error (.validation
        "Cannot delete category with children. Use force=true or move children first.")
    else if category.product_count > 0 && !force then
      .error (.validation
        "Cannot delete category with products. Use force=true or move products first.")
    else
      let db1 :=
        if force && hasChildren then
          s1.db.map (fun c =>
            if c.parent_id == some category_id then
              { c with parent_id := category.parent_id }
            else c)
        else s1.db
      let doomed := subtreeIds s1.db category_id
      let db2 := db1.filter (fun c => !(doomed.contains c.id))
      match s1.cache with
      | some cs =>
        let cs2 := cacheRawDelete (cache_delete_category cs category_id)
          "category_tree"
        .ok { db := db2, cache := some cs2 }
      | none => .ok { db := db2, cache := none }

/-- CategoryService.bulk_operation (src/app/services/category_service.py
lines 490-576): all-or-nothing existence check, then the per-operation bulk
statement; the delete branch rejects the whole batch when any requested id
occurs among stored parent_ids (it never consults product_count), and the
error is raised before any delete executes.  After the commit the entity key
of every id and the cache key category_tree are deleted. -/
def bulk_operation (s : Sys) (operation : String)
    (category_ids : List String) : Except ApiError (Sys × Nat) :=
  let existing_count := (s.db.filter (fun c => category_ids.contains c.id)).length
  if existing_count ≠ category_ids.length then
    .error (.validation "Some categories not found")
  else
    let dbRes : Except ApiError (List Category) :=
      if operation = "activate" then
        .ok (s.db.map (fun c =>
          if category_ids.contains c.id then { c with is_active := true } else c))
      else if operation = "deactivate" then
        .ok (s.db.map (fun c =>
          if category_ids.contains c.id then { c with is_active := false } else c))
      else if operation = "feature" then
        .ok (s.db.map (fun c =>
          if category_ids.contains c.id then { c with is_featured := true } else c))
      else if operation = "unfeature" then
        .ok (s.db.map (fun c =>
          if category_ids.contains c.id then { c with is_featured := false } else c))
      else if operation = "delete" then
        let parent_ids := s.db.filterMap (fun c => c.parent_id)
        let categories_with_children :=
          (s.db.filter (fun c =>
            category_ids.contains c.id && parent_ids.contains c.id)).length
        if categories_with_children > 0 then
          .error (.validation "Cannot delete categories that have children")
        else
          .ok (s.db.filter (fun c => !(category_ids.contains c.id)))
      else .ok s.db
    match dbRes with
    | .error e => .error e
    | .ok db2 =>
      let cache2 : Option CacheState :=
        match s.cache with
        | some cs =>
          some (cacheRawDelete (category_ids.foldl cache_delete_category cs)
            "category_tree")
        | none => none
      .ok ({ db := db2, cache := cache2 }, category_ids.length)

/-- ProductService.update-category-product-counts
(src/app/services/product_service.py lines 789-808): one bulk update over
the listed category ids, adding one on increment and otherwise applying
greatest(product_count - 1, 0). -/
def update_category_product_counts (db : List Category)
    (category_ids : List String) (increment : Bool) : List Category :=
  if increment then
    db.map (fun c =>
      if category_ids.contains c.id then
        { c with product_count := c.product_count + 1 }
      else c)
  else
    db.map (fun c =>
      if category_ids.contains c.id then
        { c with product_count := max (c.product_count - 1) 0 }
      else c)

/-- ProductService.update-brand-product-count
(src/app/services/product_service.py lines 810-829): same adjustment for the
single brand row. -/
def update_brand_product_count (db : List Brand) (brand_id : String)
    (increment : Bool) : List Brand :=
  if increment then
    db.map (fun b =>
      if b.id == brand_id then { b with product_count := b.product_count + 1 }
      else b)
  else
    db.map (fun b =>
      if b.id == brand_id then
        { b with product_count := max (b.product_count - 1) 0 }
      else b)

/-- One counter adjustment as issued by the product create, delete and
reassignment paths. -/
inductive CountOp where
  | categories (category_ids : List String) (increment : Bool)
  | brand (brand_id : String) (increment : Bool)

/-- Counter-bearing rows touched by the product mutation paths. -/
structure CountState where
  categories : List Category
  brands : List Brand

/-- Apply one counter adjustment to the stored rows. -/
def applyCountOp : CountState → CountOp → CountState
  | st, .categories ids inc =>
    { st with categories := update_category_product_counts st.categories ids inc }
  | st, .brand bid inc =>
    { st with brands := update_brand_product_count st.brands bid inc }

/-- Every stored product_count is non-negative. -/
def NonNegCounts (st : CountState) : Prop :=
  (∀ c ∈ st.categories, 0 ≤ c.product_count)
    ∧ (∀ b ∈ st.brands, 0 ≤ b.product_count)

/-- BrandService.update_brand_rating (src/app/services/brand_service.py
lines 605-636): silently return when the brand is unknown; otherwise fold
the incoming rating into the running average, guarding the division with
new_review_count > 0 (zero rating otherwise), and write rating and
review_count back to the row.  The source shadows the model class with the
fetched instance when issuing the update; the written row is the one the
computation targets. -/
def update_brand_rating (db : List Brand) (brand_id : String)
    (new_rating : ℚ) (review_count_delta : Int) : List Brand :=
  match db.find? (fun b => b.id == brand_id) with
  | none => db
  | some brand =>
    let current_total := brand.rating * (brand.review_count : ℚ)
    let new_total := current_total + new_rating
    let new_review_count := brand.review_count + review_count_delta
    let new_avg_rating : ℚ :=
      if 0 < new_review_count then new_total / (new_review_count : ℚ) else 0
    db.map (fun b =>
      if b.id == brand_id then
        { b with rating := new_avg_rating, review_count := new_review_count }
      else b)

/-- The rating recurrence exactly as the specification words it: the new
average is (oldAverage * oldCount + incomingRating) divided by
(oldCount + reviewCountDelta), defined as zero when the resulting count is
zero. -/
def specNewRating (oldAverage : ℚ) (oldCount : Int) (incomingRating : ℚ)
    (reviewCountDelta : Int) : ℚ :=
  if oldCount + reviewCountDelta = 0 then 0
  else (oldAverage * (oldCount : ℚ) + incomingRating)
    / ((oldCount + reviewCountDelta : Int) : ℚ)

lemma nonneg_update_category (db : List Category) (ids : List String)
    (inc : Bool) (h : ∀ c ∈ db, 0 ≤ c.product_count) :
    ∀ c ∈ update_category_product_counts db ids inc, 0 ≤ c.product_count := by
  intro c hc
  unfold update_category_product_counts at hc
  cases inc with
  | false =>
    simp only [Bool.false_eq_true, if_false, List.mem_map] at hc
    rcases hc with ⟨d, hd, rfl⟩
    by_cases hm : ids.contains d.id
    · simp only [hm, if_true]
      exact le_max_right _ _
    · simp only [hm, if_false]
      exact h d hd
  | true =>
    simp only [if_true, List.mem_map] at hc
    rcases hc with ⟨d, hd, rfl⟩
    by_cases hm : ids.contains d.id
    · simp only [hm, if_true]
      have := h d hd
      omega
    · simp only [hm, if_false]
      exact h d hd

lemma nonneg_update_brand (db : List Brand) (brand_id : String) (inc : Bool)
    (h : ∀ b ∈ db, 0 ≤ b.product_count) :
    ∀ b ∈ update_brand_product_count db brand_id inc, 0 ≤ b.product_count := by
  intro b hb
  unfold update_brand_product_count at hb
  cases inc with
  | false =>
    simp only [Bool.false_eq_true, if_false, List.mem_map] at hb
    rcases hb with ⟨d, hd, rfl⟩
    by_cases hm : d.id == brand_id
    · simp only [hm, if_true]
      exact le_max_right _ _
    · simp only [hm, if_false]
      exact h d hd
  | true =>
    simp only [if_true, List.mem_map] at hb
    rcases hb with ⟨d, hd, rfl⟩
    by_cases hm : d.id == brand_id
    · simp only [hm, if_true]
      have := h d hd
      omega
    · simp only [hm, if_false]
      exact h d hd

lemma nonneg_applyCountOp (st : CountState) (op : CountOp)
    (h : NonNegCounts st) : NonNegCounts (applyCountOp st op) := by
  cases op with
  | categories ids inc =>
    exact ⟨nonneg_update_category st.categories ids inc h.1, h.2⟩
  | brand bid inc =>
    exact ⟨h.1, nonneg_update_brand st.brands bid inc h.2⟩

/-- C6: each counter adjustment touches exactly the rows whose id is listed,
changing their product_count by plus one on increment and by minus one
clamped at zero on decrement, and as a consequence, for every sequence of
product create/delete/reassign counter operations interleaved arbitrarily,
every category and brand product_count stays non-negative at all times —
including after a decrement of a counter already at zero. -/
theorem c6_product_count_nonneg :
    (∀ (db : List Category) (category_ids : List String) (c : Category),
      c ∈ db →
      (category_ids.contains c.id →
        { c with product_count := c.product_count + 1 }
            ∈ update_category_product_counts db category_ids true
        ∧ { c with product_count := max (c.product_count - 1) 0 }
            ∈ update_category_product_counts db category_ids false)
      ∧ (¬ category_ids.contains c.id →
        c ∈ update_category_product_counts db category_ids true
        ∧ c ∈ update_category_product_counts db category_ids false))
    ∧ ∀ st : CountState, NonNegCounts st →
        ∀ ops : List CountOp, NonNegCounts (ops.foldl applyCountOp st) := by
  constructor
  · intro db category_ids c hc
    constructor
    · intro hm
      have hm2 : c.id ∈ category_ids := by simpa using hm
      constructor
      · unfold update_category_product_counts
        simp only [if_true]
        exact List.mem_map.mpr ⟨c, hc, by simp [hm2]⟩
      · unfold update_category_product_counts
        simp only [Bool.false_eq_true, if_false]
        exact List.mem_map.mpr ⟨c, hc, by simp [hm2]⟩
    · intro hm
      have hm2 : c.id ∉ category_ids := by simpa using hm
      constructor
      · unfold update_category_product_counts
        simp only [if_true]
        exact List.mem_map.mpr ⟨c, hc, by simp [hm2]⟩
      · unfold update_category_product_counts
        simp only [Bool.false_eq_true, if_false]
        exact List.mem_map.mpr ⟨c, hc, by simp [hm2]⟩
  · intro st hst ops
    induction ops generalizing st with
    | nil => exact hst
    | cons op ops ih =>
      exact ih (applyCountOp st op) (nonneg_applyCountOp st op hst)

/-- Category row used by the counter witness: its counter starts at zero. -/
def c6Cat : Category :=
  { id := "c0", name := "C0", slug := "c0", parent_id := none,
    display_order := 0, is_active := true, is_featured := false,
    product_count := 0, view_count := 0 }

/-- Operation sequence of the counter witness: two decrements of a counter
already at zero followed by an increment. -/
def c6Ops : List CountOp :=
  [.categories ["c0"] false, .categories ["c0"] false,
   .categories ["c0"] true]

theorem c6_product_count_nonneg_witness :
    NonNegCounts { categories := [c6Cat], brands := [] }
    ∧ NonNegCounts
        (c6Ops.foldl applyCountOp { categories := [c6Cat], brands := [] }) :=
  ⟨by constructor <;> decide,
   c6_product_count_nonneg.2 { categories := [c6Cat], brands := [] }
     (by constructor <;> decide) c6Ops⟩

lemma find?_map_id_preserving (db : List Brand) (brand_id : String)
    (f : Brand → Brand) (hf : ∀ b, (f b).id = b.id) :
    (db.map f).find? (fun b => b.id == brand_id)
      = (db.find? (fun b => b.id == brand_id)).map f := by
  induction db with
  | nil => rfl
  | cons b db ih =>
    cases hpb : (b.id == brand_id) with
    | false =>
      simp only [List.map_cons, List.find?_cons, hf b, hpb]
      exact ih
    | true =>
      simp only [List.map_cons, List.find?_cons, hf b, hpb]
      rfl

/-- Brand used for the rating scenario: rating 0 with zero reviews. -/
def ratingBrand0 : Brand :=
  { id := "b", name := "B", product_count := 0, rating := 0,
    review_count := 0 }

/-- C8: update_brand_rating writes back review_count increased by the delta
and the running-average rating (oldAverage * oldCount + incomingRating) /
(oldCount + reviewCountDelta), with the result defined as zero rating when
the resulting count is zero; concretely, from rating 0 and review_count 0,
folding in 4.0 gives rating 4.0 with count 1 and then folding in 5.0 gives
rating 4.5 with count 2. -/
theorem c8_update_brand_rating :
    (∀ (db : List Brand) (brand_id : String) (brand : Brand) (new_rating : ℚ)
      (review_count_delta : Int),
      db.find? (fun b => b.id == brand_id) = some brand →
      0 ≤ brand.review_count + review_count_delta →
      (update_brand_rating db brand_id new_rating review_count_delta).find?
          (fun b => b.id == brand_id)
        = some { brand with
            rating := specNewRating brand.rating brand.review_count new_rating
              review_count_delta,
            review_count := brand.review_count + review_count_delta })
    ∧ update_brand_rating (update_brand_rating [ratingBrand0] "b" 4 1) "b" 5 1
        = [{ ratingBrand0 with rating := 9 / 2, review_count := 2 }] := by
  constructor
  · intro db brand_id brand new_rating review_count_delta hfind hnonneg
    have hpb := List.find?_some hfind
    unfold update_brand_rating
    rw [hfind]
    rw [find?_map_id_preserving db brand_id _ (by
      intro b
      by_cases hb : (b.id == brand_id) <;> simp [hb])]
    rw [hfind]
    simp only [Option.map_some']
    rw [if_pos hpb]
    unfold specNewRating
    by_cases h0 : brand.review_count + review_count_delta = 0
    · rw [if_neg (show ¬ (0:Int) < brand.review_count + review_count_delta by omega),
        if_pos h0]
    · rw [if_pos (show (0:Int) < brand.review_count + review_count_delta by omega),
        if_neg h0]
  · have h1 : update_brand_rating [ratingBrand0] "b" 4 1
        = [{ ratingBrand0 with rating := 4, review_count := 1 }] := by
      unfold update_brand_rating
      norm_num [ratingBrand0, List.find?]
    rw [h1]
    unfold update_brand_rating
    norm_num [ratingBrand0, List.find?]

theorem c8_update_brand_rating_witness :
    ([ratingBrand0].find? (fun b => b.id == "b") = some ratingBrand0)
    ∧ (0 : Int) ≤ ratingBrand0.review_count + 1
    ∧ (update_brand_rating [ratingBrand0] "b" 4 1).find?
        (fun b => b.id == "b")
      = some { ratingBrand0 with
          rating := specNewRating ratingBrand0.rating ratingBrand0.review_count
            4 1,
          review_count := ratingBrand0.review_count + 1 } :=
  ⟨rfl, by decide,
   c8_update_brand_rating.1 [ratingBrand0] "b" ratingBrand0 4 1 rfl (by decide)⟩

/-- Category row with one product and no children, used to falsify the
bulk-delete claim. -/
def c9Cat : Category :=
  { id := "c1", name := "C1", slug := "c1", parent_id := none,
    display_order := 0, is_active := true, is_featured := false,
    product_count := 1, view_count := 0 }

/-- C9 counterexample: category c1 has product_count 1 and no children, so
the claim requires bulk delete of the batch containing c1 to fail with a
validation error and delete nothing; the source checks only for children,
so the operation succeeds and removes the row. -/
theorem c9_counterexample :
    c9Cat.product_count > 0
    ∧ ((bulk_operation { db := [c9Cat], cache := none } "delete" ["c1"]).map
        (fun r => (r.fst.db, r.snd)) = .ok ([], 1)) := by
  constructor
  · decide
  · rfl

/-- C9 amended: once every batched id exists, bulk delete fails as a whole
with a validation error exactly when some batched id occurs among stored
parent_ids (the id has children), deleting nothing because the error is
raised before the delete statement; otherwise it deletes exactly the batched
rows.  The per-id product_count is never consulted, and the bulk schema has
no force flag. -/
theorem c9_bulk_delete_amended (db : List Category)
    (category_ids : List String)
    (hexists : (db.filter (fun c => category_ids.contains c.id)).length
      = category_ids.length) :
    ((∃ c ∈ db, category_ids.contains c.id
        ∧ (db.filterMap (fun x => x.parent_id)).contains c.id) →
      bulk_operation { db := db, cache := none } "delete" category_ids
        = .error (.validation "Cannot delete categories that have children"))
    ∧ ((¬ ∃ c ∈ db, category_ids.contains c.id
        ∧ (db.filterMap (fun x => x.parent_id)).contains c.id) →
      bulk_operation { db := db, cache := none } "delete" category_ids
        = .ok
            ({ db := db.filter (fun c => !(category_ids.contains c.id)),
               cache := none },
             category_ids.length)) := by
  constructor
  · intro hex
    rcases hex with ⟨c, hc, h1, h2⟩
    have hmem : c ∈ db.filter (fun c =>
        category_ids.contains c.id
          && (db.filterMap (fun x => x.parent_id)).contains c.id) := by
      rw [List.mem_filter]
      exact ⟨hc, by rw [Bool.and_eq_true]; exact ⟨h1, h2⟩⟩
    have hpos : 0 < (db.filter (fun c =>
        category_ids.contains c.id
          && (db.filterMap (fun x => x.parent_id)).contains c.id)).length :=
      List.length_pos_of_mem hmem
    simp only [bulk_operation]
    rw [if_neg (not_ne_iff.mpr hexists)]
    rw [if_pos hpos]
    rfl
  · intro hex
    have hnil : db.filter (fun c =>
        category_ids.contains c.id
          && (db.filterMap (fun x => x.parent_id)).contains c.id) = [] := by
      rw [List.filter_eq_nil_iff]
      intro c hc hpc
      rw [Bool.and_eq_true] at hpc
      exact hex ⟨c, hc, hpc.1, hpc.2⟩
    have hlen0 : ¬ (db.filter (fun c =>
        category_ids.contains c.id
          && (db.filterMap (fun x => x.parent_id)).contains c.id)).length > 0 := by
      rw [hnil]
      simp
    simp only [bulk_operation]
    rw [if_neg (not_ne_iff.mpr hexists)]
    rw [if_neg hlen0]
    rfl

/-- Root row of the bulk-delete witness store. -/
def c9we : Category :=
  { id := "e", name := "Electronics", slug := "electronics",
    parent_id := none, display_order := 0, is_active := true,
    is_featured := false, product_count := 0, view_count := 0 }

/-- Child row of the bulk-delete witness store. -/
def c9wp : Category :=
  { id := "p", name := "Phones", slug := "phones", parent_id := some "e",
    display_order := 0, is_active := true, is_featured := false,
    product_count := 0, view_count := 0 }

theorem c9_bulk_delete_amended_witness :
    bulk_operation { db := [c9we, c9wp], cache := none } "delete" ["p"]
      = .ok ({ db := [c9we], cache := none }, 1) := by
  have h := (c9_bulk_delete_amended [c9we, c9wp] ["p"] rfl).2 (by decide)
  exact h.trans (by rfl)

/-- C7: with a failing cache backend (every cache call raises, which the
CacheService wrappers turn into a miss on get and a no-op on set or delete)
the modelled operations return exactly what they return with no cache
attached: the entity read falls back to the store and never fails, the tree
read rebuilds from the store, and a move produces the same result and the
same store state. -/
theorem c7_cache_failure_transparent (db : List Category)
    (entries : List (String × CacheVal)) (category_id : String)
    (increment_view : Bool) (active_only : Bool) (move_data : CategoryMove) :
    ((get_category
        { db := db, cache := some { entries := entries, failing := true } }
        category_id increment_view).fst
      = (get_category { db := db, cache := none } category_id
          increment_view).fst)
    ∧ ((get_category
        { db := db, cache := some { entries := entries, failing := true } }
        category_id increment_view).snd.db
      = (get_category { db := db, cache := none } category_id
          increment_view).snd.db)
    ∧ ((get_category_tree
        { db := db, cache := some { entries := entries, failing := true } }
        active_only).fst
      = (get_category_tree { db := db, cache := none } active_only).fst)
    ∧ ((move_category
          { db := db, cache := some { entries := entries, failing := true } }
          category_id move_data).map (fun r => (r.fst, r.snd.db))
      = (move_category { db := db, cache := none } category_id
          move_data).map (fun r => (r.fst, r.snd.db))) := by
  refine ⟨?_, ?_, ?_, ?_⟩
  · cases hl : lookup db category_id <;>
      simp [get_category, cache_get_category, cacheRawGet, cache_set_category,
        cacheRawSet, hl]
  · cases hl : lookup db category_id <;>
      simp [get_category, cache_get_category, cacheRawGet, cache_set_category,
        cacheRawSet, hl]
  · simp [get_category_tree, cacheRawGet, cacheRawSet]
  · rcases move_data with ⟨np, pos⟩
    cases hl : lookup db category_id with
    | none =>
      simp [move_category, get_category, cache_get_category, cacheRawGet, hl]
    | some cat =>
      cases np with
      | none =>
        simp [move_category, get_category, cache_get_category, cacheRawGet,
          cache_set_category, cacheRawSet, cache_delete_category,
          cacheRawDelete, hl, Except.map]
      | some pid =>
        cases hp : lookup db pid with
        | none =>
          simp [move_category, get_category, cache_get_category, cacheRawGet,
            cache_set_category, cacheRawSet, hl, hp]
        | some par =>
          by_cases hw : would_create_circular_reference db category_id pid <;>
            simp [move_category, get_category, cache_get_category, cacheRawGet,
              cache_set_category, cacheRawSet, cache_delete_category,
              cacheRawDelete, hl, hp, hw, Except.map]

lemma upwardWalk_eq (db : List Category) (b : String) :
    upwardWalk db b
      = b :: futureWalk db (db.length + 1) (stepParent db b) [b] := by
  show futureWalk db (db.length + 2) (some b) [] = _
  rw [show db.length + 2 = db.length + 1 + 1 from rfl]
  simp [futureWalk]

lemma mem_upwardWalk_self (db : List Category) (b : String) :
    b ∈ upwardWalk db b := by
  rw [upwardWalk_eq]
  exact List.mem_cons_self _ _

/-- C2: with the store authoritative, moving category A under target B fails
with the circular-reference validation error whenever B equals A or B is a
descendant of A, i.e. the upward parent walk from B reaches A; and it
succeeds with the result row's parent_id equal to B whenever B is null, or B
exists and its upward walk does not reach A. -/
theorem c2_move_validation (db : List Category) (A : String)
    (catA : Category) (hA : lookup db A = some catA)
    (move_data : CategoryMove) :
    ((move_data.new_parent_id = some A
        ∨ ∃ b, move_data.new_parent_id = some b ∧ A ∈ upwardWalk db b) →
      move_category { db := db, cache := none } A move_data
        = .error (.validation
            "Cannot move category: would create circular reference"))
    ∧ (move_data.new_parent_id = none →
      ∃ s2, move_category { db := db, cache := none } A move_data
        = .ok ({ catA with parent_id := none, display_order := move_data.new_position.getD catA.display_order }, s2))
    ∧ (∀ b catB, move_data.new_parent_id = some b →
      lookup db b = some catB → A ∉ upwardWalk db b →
      ∃ s2, move_category { db := db, cache := none } A move_data
        = .ok ({ catA with parent_id := some b, display_order := move_data.new_position.getD catA.display_order }, s2)) := by
  rcases move_data with ⟨np, pos⟩
  refine ⟨?_, ?_, ?_⟩
  · intro h
    obtain ⟨b, hnp, hmem⟩ : ∃ b, np = some b ∧ A ∈ upwardWalk db b := by
      rcases h with h | ⟨b, hb, hm⟩
      · exact ⟨A, h, mem_upwardWalk_self db A⟩
      · exact ⟨b, hb, hm⟩
    subst hnp
    have hwt : would_create_circular_reference db A b = true :=
      (wccrGo_eq_mem_futureWalk db A (db.length + 2) (some b) []
        (by simp)).mpr hmem
    by_cases hAb : b = A
    · subst hAb
      simp [move_category, get_category, hA, hwt]
    · obtain ⟨catB, hlk⟩ : ∃ catB, lookup db b = some catB := by
        cases hl : lookup db b with
        | some catB => exact ⟨catB, rfl⟩
        | none =>
          exfalso
          have hstep : stepParent db b = none := by
            simp [stepParent, hl]
          have hwalk : upwardWalk db b = [b] := by
            rw [upwardWalk_eq, hstep]
            rfl
          rw [hwalk] at hmem
          simp at hmem
          exact hAb hmem.symm
      simp [move_category, get_category, hA, hlk, hwt]
  · intro h
    subst h
    refine ⟨⟨db.map (fun c =>
        if c.id == A then { catA with parent_id := none, display_order := pos.getD catA.display_order }
        else c), none⟩, ?_⟩
    simp [move_category, get_category, hA]
  · intro b catB hnp hlk hnmem
    subst hnp
    have hwf : would_create_circular_reference db A b = false := by
      rw [Bool.eq_false_iff]
      intro hwt
      exact hnmem ((wccrGo_eq_mem_futureWalk db A (db.length + 2) (some b) []
        (by simp)).mp hwt)
    refine ⟨⟨db.map (fun c =>
        if c.id == A then { catA with parent_id := some b, display_order := pos.getD catA.display_order }
        else c), none⟩, ?_⟩
    simp [move_category, get_category, hA, hlk, hwf]

theorem c2_move_validation_witness :
    ∃ s2, move_category { db := [c9we, c9wp], cache := none } "p"
        { new_parent_id := none, new_position := none }
      = .ok ({ c9wp with parent_id := none, display_order := (none : Option Int).getD c9wp.display_order }, s2) :=
  (c2_move_validation [c9we, c9wp] "p" c9wp rfl
    { new_parent_id := none, new_position := none }).2.1 rfl

/-- Deepest row of the force-delete scenario: Smartphones under Phones
under Electronics. -/
def c5ws : Category :=
  { id := "s", name := "Smartphones", slug := "smartphones",
    parent_id := some "p", display_order := 0, is_active := true,
    is_featured := false, product_count := 0, view_count := 0 }

/-- C5: the claim says force delete is a splice — children re-parented to
the deleted node's own parent, only the node itself removed, so in the
Electronics, Phones, Smartphones chain Smartphones must survive the force
delete of Phones with parent_id equal to Electronics.  The source does
issue the re-parenting UPDATE, but Category.children is declared with
cascade equal to all, delete-orphan (src/app/models/category.py lines
129-133) and the children collection is eagerly loaded before the UPDATE,
so session.delete(category) cascades the delete over the just-re-parented
children: force-deleting Phones removes Smartphones as well, leaving only
Electronics — a subtree deletion, contradicting the claim and the code's
own intent stated in its comment about moving children to the parent. -/
theorem c5_force_delete_cascade_bug :
    ((delete_category { db := [c9we, c9wp, c5ws], cache := none } "p"
        true).map (fun s2 => s2.db) = .ok [c9we])
    ∧ (∀ c ∈ ([c9we] : List Category), ¬ c.id = c5ws.id) :=
  ⟨rfl, by decide⟩

/-- Initial state of the invalidation scenario: empty store, empty healthy
cache. -/
def c1Sys0 : Sys := { db := [], cache := some { entries := [], failing := false } }

/-- Create payload for Electronics as a root category. -/
def electronicsCreate : CategoryCreate :=
  { name := "Electronics", parent_id := none, display_order := 0,
    is_active := true, is_featured := false }

/-- Create payload for Phones under Electronics. -/
def phonesCreate : CategoryCreate :=
  { name := "Phones", parent_id := some "e", display_order := 0,
    is_active := true, is_featured := false }

/-- State after creating Electronics (id e) and Phones (id p, parent e). -/
def c1AfterCreates : Sys :=
  match create_category c1Sys0 electronicsCreate "e" "electronics" with
  | .ok (_, s1) =>
    match create_category s1 phonesCreate "p" "phones" with
    | .ok (_, s2) => s2
    | .error _ => s1
  | .error _ => c1Sys0

/-- First tree read: populates the cache under category_tree_active. -/
def c1FirstRead : List CategoryTree × Sys :=
  get_category_tree c1AfterCreates true

/-- State after moving Phones to the root. -/
def c1AfterMove : Sys :=
  match move_category c1FirstRead.snd "p"
      { new_parent_id := none, new_position := none } with
  | .ok (_, s4) => s4
  | .error _ => c1FirstRead.snd

/-- Second tree read, after the move. -/
def c1SecondRead : List CategoryTree × Sys :=
  get_category_tree c1AfterMove true

/-- Phones row as it stands after the move to root. -/
def phonesMoved : Category :=
  { id := "p", name := "Phones", slug := "phones", parent_id := none,
    display_order := 0, is_active := true, is_featured := false,
    product_count := 0, view_count := 0 }

/-- C1: the claim says every structural mutation invalidates both cached
tree variants, so the post-move tree read must show Phones as a root.  In
the source every mutation deletes the cache key category_tree, while tree
reads cache under category_tree_active and category_tree_all; running the
scenario, the move succeeds but the second read is served from the stale
pre-move cache entry: its only root is Electronics and Phones is still
listed under Electronics, although a fresh build of the post-move store
would list Phones as a root. -/
theorem c1_tree_cache_stale_after_move :
    (move_category c1FirstRead.snd "p"
        { new_parent_id := none, new_position := none }).isOk = true
    ∧ lookup c1AfterMove.db "p" = some phonesMoved
    ∧ c1SecondRead.fst.map CategoryTree.id = ["e"]
    ∧ c1SecondRead.fst.map (fun t => t.children.map CategoryTree.id)
        = [["p"]]
    ∧ (build_tree c1AfterMove.db true).map CategoryTree.id = ["e", "p"] := by
  refine ⟨rfl, rfl, rfl, rfl, rfl⟩

/-- The parent graph of a row list is a forest: some level assignment sends
every stored parent link into the list, one level up. -/
def IsForest (l : List Category) : Prop :=
  ∃ lvl : String → Nat, ∀ c ∈ l, ∀ p, c.parent_id = some p →
    (∃ q ∈ l, q.id = p) ∧ lvl c.id = lvl p + 1

/-- Bounded reachability along parent pointers: some iterate of the parent
map within the fuel bound sends the start id to the target id. -/
def hitsWithin (l : List Category) (x cid : String) (fuel : Nat) : Bool :=
  (List.range (fuel + 1)).any (fun k => chainIter l k x == some cid)

lemma hitsWithin_iff (l : List Category) (x cid : String) (fuel : Nat) :
    hitsWithin l x cid fuel = true
      ↔ ∃ k, k ≤ fuel ∧ chainIter l k x = some cid := by
  unfold hitsWithin
  rw [List.any_eq_true]
  constructor
  · rintro ⟨k, hk, hc⟩
    rw [List.mem_range] at hk
    exact ⟨k, by omega, by simpa using hc⟩
  · rintro ⟨k, hk, hc⟩
    exact ⟨k, List.mem_range.mpr (by omega), by simpa using hc⟩

lemma dictByIdGo_nodup : ∀ (fuel : Nat) (l : List Category),
    l.length ≤ fuel → (l.map (fun c => c.id)).Nodup →
    dictByIdGo fuel l = l := by
  intro fuel
  induction fuel with
  | zero =>
    intro l hl _
    cases l with
    | nil => rfl
    | cons a l => simp at hl
  | succ fuel ih =>
    intro l hl hnd
    cases l with
    | nil => rfl
    | cons c rest =>
      simp only [List.map_cons, List.nodup_cons] at hnd
      have hno : ∀ d ∈ rest, (d.id == c.id) = false := by
        intro d hd
        rw [beq_eq_false_iff_ne]
        intro h
        exact hnd.1 (h ▸ List.mem_map_of_mem _ hd)
      have h1 : (c :: rest).filter (fun d => d.id == c.id) = [c] := by
        rw [List.filter_cons]
        simp only [beq_self_eq_true, if_true]
        rw [show rest.filter (fun d => d.id == c.id) = [] from
          List.filter_eq_nil_iff.mpr (by
            intro d hd
            simp [hno d hd])]
      have h2 : rest.filter (fun d => !(d.id == c.id)) = rest := by
        rw [List.filter_eq_self]
        intro d hd
        simp [hno d hd]
      unfold dictByIdGo
      rw [h1, h2]
      have : rest.length ≤ fuel := by
        simp only [List.length_cons] at hl
        omega
      rw [ih rest this hnd.2]
      rfl

lemma lookup_self (l : List Category)
    (hnd : (l.map (fun c => c.id)).Nodup) :
    ∀ c ∈ l, lookup l c.id = some c := by
  induction l with
  | nil => intro c hc; cases hc
  | cons a rest ih =>
    intro c hc
    simp only [List.map_cons, List.nodup_cons] at hnd
    rcases List.mem_cons.mp hc with rfl | hc2
    · unfold lookup
      rw [List.find?_cons]
      simp
    · have hne : (a.id == c.id) = false := by
        rw [beq_eq_false_iff_ne]
        intro h
        exact hnd.1 (h ▸ List.mem_map_of_mem _ hc2)
      unfold lookup
      rw [List.find?_cons, hne]
      exact ih hnd.2 c hc2

lemma chain_none_succ (l : List Category) (x : String) :
    ∀ (k t : Nat), chainIter l k x = none → chainIter l (k + t) x = none := by
  intro k t
  induction t with
  | zero => intro h; exact h
  | succ t ih =>
    intro h
    have hkt : chainIter l (k + t) x = none := ih h
    have he : chainIter l (k + (t + 1)) x
        = (chainIter l (k + t) x).bind (stepParent l) := rfl
    rw [he, hkt]
    rfl

lemma chain_closed (l : List Category) (lvl : String → Nat)
    (hlvl : ∀ c ∈ l, ∀ p, c.parent_id = some p →
      (∃ q ∈ l, q.id = p) ∧ lvl c.id = lvl p + 1) :
    ∀ (k : Nat) (x : Category), x ∈ l → ∀ y, chainIter l k x.id = some y →
    (∃ q ∈ l, q.id = y) ∧ lvl y + k = lvl x.id := by
  intro k
  induction k with
  | zero =>
    intro x hx y hy
    have hxy : x.id = y := by simpa [chainIter] using hy
    exact ⟨⟨x, hx, hxy⟩, by rw [← hxy]; omega⟩
  | succ k ih =>
    intro x hx y hy
    rcases Option.bind_eq_some.mp hy with ⟨z, hz, hstep⟩
    rcases ih x hx z hz with ⟨⟨q, hq, hqid⟩, hlv⟩
    unfold stepParent at hstep
    rcases Option.bind_eq_some.mp hstep with ⟨w, hw, hwp⟩
    have hwl : w ∈ l := List.mem_of_find?_eq_some hw
    have hwid : w.id = z := by
      have := List.find?_some hw
      simpa using this
    rcases hlvl w hwl y hwp with ⟨hy_mem, hwlvl⟩
    refine ⟨hy_mem, ?_⟩
    rw [hwid] at hwlvl
    omega

lemma id_inj (l : List Category) (hnd : (l.map (fun c => c.id)).Nodup) :
    ∀ a ∈ l, ∀ b ∈ l, a.id = b.id → a = b := by
  intro a ha b hb h
  exact List.inj_on_of_nodup_map hnd ha hb h

lemma countP_eq_one_of_unique {α : Type} {p : α → Bool} {xs : List α}
    (q : α) (hq : q ∈ xs) (hpq : p q = true)
    (huniq : ∀ a ∈ xs, p a = true → a = q) (hxs : xs.Nodup) :
    xs.countP p = 1 := by
  induction xs with
  | nil => cases hq
  | cons a xs ih =>
    rw [List.countP_cons]
    rcases List.mem_cons.mp hq with rfl | hq2
    · rw [if_pos hpq]
      have h0 : xs.countP p = 0 := by
        rw [List.countP_eq_zero]
        intro b hb hpb
        have := huniq b (List.mem_cons_of_mem _ hb) hpb
        subst this
        exact (List.nodup_cons.mp hxs).1 hb
      omega
    · have hpa : p a = false := by
        cases hpa2 : p a with
        | false => rfl
        | true =>
          have := huniq a (List.mem_cons_self _ _) hpa2
          subst this
          exact absurd hq2 (List.nodup_cons.mp hxs).1
      rw [hpa]
      simp only [Bool.false_eq_true, if_false, Nat.add_zero]
      exact ih hq2 (fun b hb hpb =>
        huniq b (List.mem_cons_of_mem _ hb) hpb) (List.nodup_cons.mp hxs).2

lemma sum_map_ite_countP {α : Type} (p : α → Bool) (xs : List α) :
    (xs.map (fun d => if p d = true then 1 else 0)).sum = xs.countP p := by
  induction xs with
  | nil => rfl
  | cons a xs ih =>
    rw [List.map_cons, List.sum_cons, List.countP_cons, ih]
    by_cases hpa : p a = true
    · rw [if_pos hpa]
      omega
    · rw [if_neg hpa]
      omega

lemma flattenTrees_eq_flatMap : ∀ ts : List CategoryTree,
    flattenTrees ts = ts.flatMap flattenTree := by
  intro ts
  induction ts with
  | nil => rfl
  | cons t ts ih =>
    rw [List.flatMap_cons, ← ih]
    rfl

lemma flattenTrees_perm {ts1 ts2 : List CategoryTree} (h : ts1.Perm ts2) :
    (flattenTrees ts1).Perm (flattenTrees ts2) := by
  rw [flattenTrees_eq_flatMap, flattenTrees_eq_flatMap]
  exact List.Perm.flatMap_right _ h

lemma count_flattenTrees_map {α : Type} (g : α → CategoryTree)
    (a : String) : ∀ ds : List α,
    (flattenTrees (ds.map g)).count a
      = (ds.map (fun d => (flattenTree (g d)).count a)).sum := by
  intro ds
  induction ds with
  | nil => rfl
  | cons d ds ih =>
    have : flattenTrees ((d :: ds).map g)
        = flattenTree (g d) ++ flattenTrees (ds.map g) := rfl
    rw [this, List.count_append, ih, List.map_cons, List.sum_cons]

lemma count_flatten_build (l : List Category) (lvl : String → Nat)
    (hnd : (l.map (fun c => c.id)).Nodup)
    (hlvl : ∀ c ∈ l, ∀ p, c.parent_id = some p →
      (∃ q ∈ l, q.id = p) ∧ lvl c.id = lvl p + 1) :
    ∀ (fuel : Nat) (c : Category), c ∈ l → ∀ x : Category, x ∈ l →
    (flattenTree (build_category_tree_node l fuel c)).count x.id
      = if hitsWithin l x.id c.id fuel = true then 1 else 0 := by
  intro fuel
  induction fuel with
  | zero =>
    intro c hc x hx
    have hflat : flattenTree (build_category_tree_node l 0 c) = [c.id] := rfl
    have hrhs : hitsWithin l x.id c.id 0 = true ↔ x.id = c.id := by
      rw [hitsWithin_iff]
      constructor
      · rintro ⟨k, hk, hck⟩
        have hk0 : k = 0 := by omega
        subst hk0
        simpa [chainIter] using hck
      · intro h
        exact ⟨0, le_refl 0, by simp [chainIter, h]⟩
    rw [hflat]
    by_cases hxc : x.id = c.id
    · rw [if_pos (hrhs.mpr hxc)]
      simp [List.count_cons, hxc]
    · rw [if_neg (fun h => hxc (hrhs.mp h))]
      have hne : ¬ c.id = x.id := fun h => hxc h.symm
      simp [List.count_cons, hne]
  | succ fuel ih =>
    intro c hc x hx
    have hflat : flattenTree (build_category_tree_node l (fuel + 1) c)
        = c.id :: flattenTrees (List.insertionSort treeNameLe
            ((l.filter (fun d => d.parent_id == some c.id)).map
              (build_category_tree_node l fuel))) := rfl
    rw [hflat, List.count_cons]
    have hperm : (flattenTrees (List.insertionSort treeNameLe
        ((l.filter (fun d => d.parent_id == some c.id)).map
          (build_category_tree_node l fuel)))).count x.id
        = (flattenTrees ((l.filter (fun d => d.parent_id == some c.id)).map
            (build_category_tree_node l fuel))).count x.id :=
      (flattenTrees_perm (List.perm_insertionSort treeNameLe _)).count_eq _
    rw [hperm, count_flattenTrees_map]
    have hds_sub : ∀ d ∈ l.filter (fun d => d.parent_id == some c.id),
        d ∈ l := fun d hd => List.mem_of_mem_filter hd
    have hds_parent : ∀ d ∈ l.filter (fun d => d.parent_id == some c.id),
        d.parent_id = some c.id := by
      intro d hd
      have := (List.mem_filter.mp hd).2
      simpa using this
    have hds_nodup : (l.filter (fun d => d.parent_id == some c.id)).Nodup :=
      List.Nodup.of_map (fun c => c.id)
        (List.Nodup.sublist
          (List.Sublist.map (fun c => c.id) (List.filter_sublist l)) hnd)
    have hmapeq : (l.filter (fun d => d.parent_id == some c.id)).map
          (fun d => (flattenTree (build_category_tree_node l fuel d)).count x.id)
        = (l.filter (fun d => d.parent_id == some c.id)).map
          (fun d => if hitsWithin l x.id d.id fuel = true then 1 else 0) := by
      apply List.map_congr_left
      intro d hd
      exact ih d (hds_sub d hd) x hx
    rw [hmapeq, sum_map_ite_countP]
    by_cases hxc : x.id = c.id
    · have hcnt0 : (l.filter (fun d => d.parent_id == some c.id)).countP
          (fun d => hitsWithin l x.id d.id fuel) = 0 := by
        rw [List.countP_eq_zero]
        intro d hd hhit
        rcases (hitsWithin_iff _ _ _ _).mp hhit with ⟨k, hk, hck⟩
        rcases chain_closed l lvl hlvl k x hx d.id hck with ⟨_, hlvd⟩
        rcases hlvl d (hds_sub d hd) c.id (hds_parent d hd) with ⟨_, hld⟩
        rw [← hxc] at hld
        omega
      have hbeq : (c.id == x.id) = true := beq_iff_eq.mpr hxc.symm
      rw [hcnt0, hbeq,
        if_pos ((hitsWithin_iff _ _ _ _).mpr
          ⟨0, by omega, by simp [chainIter, hxc]⟩)]
      simp
    · have hbeq : (c.id == x.id) = false :=
        beq_eq_false_iff_ne.mpr (fun h => hxc h.symm)
      rw [hbeq]
      simp only [Bool.false_eq_true, if_false, Nat.add_zero]
      by_cases hhit : hitsWithin l x.id c.id (fuel + 1) = true
      · rw [if_pos hhit]
        rcases (hitsWithin_iff _ _ _ _).mp hhit with ⟨k, hk, hck⟩
        obtain ⟨j, rfl⟩ : ∃ j, k = j + 1 := by
          cases k with
          | zero => exact absurd (by simpa [chainIter] using hck) hxc
          | succ j => exact ⟨j, rfl⟩
        rcases Option.bind_eq_some.mp hck with ⟨z, hz, hstep⟩
        unfold stepParent at hstep
        rcases Option.bind_eq_some.mp hstep with ⟨w, hw, hwp⟩
        have hwl : w ∈ l := List.mem_of_find?_eq_some hw
        have hwid : w.id = z := by
          have := List.find?_some hw
          simpa using this
        have hwds : w ∈ l.filter (fun d => d.parent_id == some c.id) :=
          List.mem_filter.mpr ⟨hwl, by simp [hwp]⟩
        have hzw : chainIter l j x.id = some w.id := by
          rw [hwid]
          exact hz
        have hwhit : hitsWithin l x.id w.id fuel = true :=
          (hitsWithin_iff _ _ _ _).mpr ⟨j, by omega, hzw⟩
        have huniq : ∀ d ∈ l.filter (fun d => d.parent_id == some c.id),
            hitsWithin l x.id d.id fuel = true → d = w := by
          intro d hd hhitd
          rcases (hitsWithin_iff _ _ _ _).mp hhitd with ⟨j2, hj2, hcj2⟩
          rcases chain_closed l lvl hlvl j2 x hx d.id hcj2 with ⟨_, hlvd⟩
          rcases chain_closed l lvl hlvl j x hx w.id hzw with ⟨_, hlvw⟩
          rcases hlvl d (hds_sub d hd) c.id (hds_parent d hd) with ⟨_, hld⟩
          rcases hlvl w hwl c.id hwp with ⟨_, hlw⟩
          have hj2j : j2 = j := by omega
          subst hj2j
          have hdw : d.id = w.id := by
            rw [hcj2] at hzw
            exact Option.some.inj hzw
          exact id_inj l hnd d (hds_sub d hd) w hwl hdw
        rw [countP_eq_one_of_unique w hwds hwhit huniq hds_nodup]
      · rw [if_neg hhit]
        have hcnt0 : (l.filter (fun d => d.parent_id == some c.id)).countP
            (fun d => hitsWithin l x.id d.id fuel) = 0 := by
          rw [List.countP_eq_zero]
          intro d hd hhitd
          rcases (hitsWithin_iff _ _ _ _).mp hhitd with ⟨j, hj, hcj⟩
          apply hhit
          apply (hitsWithin_iff _ _ _ _).mpr
          refine ⟨j + 1, by omega, ?_⟩
          have he : chainIter l (j + 1) x.id
              = (chainIter l j x.id).bind (stepParent l) := rfl
          rw [he, hcj]
          simp [stepParent, lookup_self l hnd d (hds_sub d hd),
            hds_parent d hd]
        rw [hcnt0]

lemma mem_flattenTrees_map {α : Type} (g : α → CategoryTree) (s : String) :
    ∀ ds : List α, s ∈ flattenTrees (ds.map g) →
    ∃ d ∈ ds, s ∈ flattenTree (g d) := by
  intro ds
  induction ds with
  | nil => intro h; cases h
  | cons d ds ih =>
    intro h
    have he : flattenTrees ((d :: ds).map g)
        = flattenTree (g d) ++ flattenTrees (ds.map g) := rfl
    rw [he, List.mem_append] at h
    rcases h with h | h
    · exact ⟨d, List.mem_cons_self _ _, h⟩
    · rcases ih h with ⟨d2, hd2, hs⟩
      exact ⟨d2, List.mem_cons_of_mem _ hd2, hs⟩

lemma mem_flatten_build (l : List Category) :
    ∀ (fuel : Nat) (c : Category), c ∈ l →
    ∀ s ∈ flattenTree (build_category_tree_node l fuel c),
    ∃ d ∈ l, s = d.id := by
  intro fuel
  induction fuel with
  | zero =>
    intro c hc s hs
    have : s = c.id := by
      have he : flattenTree (build_category_tree_node l 0 c) = [c.id] := rfl
      rw [he] at hs
      simpa using hs
    exact ⟨c, hc, this⟩
  | succ fuel ih =>
    intro c hc s hs
    have he : flattenTree (build_category_tree_node l (fuel + 1) c)
        = c.id :: flattenTrees (List.insertionSort treeNameLe
            ((l.filter (fun d => d.parent_id == some c.id)).map
              (build_category_tree_node l fuel))) := rfl
    rw [he] at hs
    rcases List.mem_cons.mp hs with rfl | hs2
    · exact ⟨c, hc, rfl⟩
    · have hmem := (flattenTrees_perm
        (List.perm_insertionSort treeNameLe _)).mem_iff.mp hs2
      rcases mem_flattenTrees_map _ s _ hmem with ⟨d, hd, hsd⟩
      exact ih d (List.mem_of_mem_filter hd) s hsd

lemma count_forest (l : List Category) (lvl : String → Nat)
    (hnd : (l.map (fun c => c.id)).Nodup)
    (hlvl : ∀ c ∈ l, ∀ p, c.parent_id = some p →
      (∃ q ∈ l, q.id = p) ∧ lvl c.id = lvl p + 1)
    (x : Category) (hx : x ∈ l) :
    (flattenTrees ((l.filter (fun c => c.parent_id.isNone)).map
      (build_category_tree_node l l.length))).count x.id = 1 := by
  rw [count_flattenTrees_map]
  have hmapeq : (l.filter (fun c => c.parent_id.isNone)).map
        (fun r => (flattenTree (build_category_tree_node l l.length r)).count x.id)
      = (l.filter (fun c => c.parent_id.isNone)).map
        (fun r => if hitsWithin l x.id r.id l.length = true then 1 else 0) := by
    apply List.map_congr_left
    intro r hr
    exact count_flatten_build l lvl hnd hlvl l.length r
      (List.mem_of_mem_filter hr) x hx
  rw [hmapeq, sum_map_ite_countP]
  by_cases hstuck : ∃ k, k ≤ l.length
      ∧ ∃ y, chainIter l k x.id = some y ∧ stepParent l y = none
  · rcases hstuck with ⟨k, hk, y, hy, hsy⟩
    rcases chain_closed l lvl hlvl k x hx y hy with ⟨⟨q, hq, hqid⟩, _⟩
    have hlq : lookup l y = some q := by
      rw [← hqid]
      exact lookup_self l hnd q hq
    have hqp : q.parent_id = none := by
      unfold stepParent at hsy
      rw [hlq] at hsy
      simpa using hsy
    have hqroot : q ∈ l.filter (fun c => c.parent_id.isNone) :=
      List.mem_filter.mpr ⟨hq, by simp [hqp]⟩
    have hqhit : hitsWithin l x.id q.id l.length = true :=
      (hitsWithin_iff _ _ _ _).mpr ⟨k, hk, by rw [hqid]; exact hy⟩
    have hq_step : chainIter l (k + 1) x.id = none := by
      have he : chainIter l (k + 1) x.id
          = (chainIter l k x.id).bind (stepParent l) := rfl
      rw [he, hy]
      simpa using hsy
    have huniq : ∀ r ∈ l.filter (fun c => c.parent_id.isNone),
        hitsWithin l x.id r.id l.length = true → r = q := by
      intro r hr hrhit
      have hrl : r ∈ l := List.mem_of_mem_filter hr
      have hrp : r.parent_id = none := by
        have := (List.mem_filter.mp hr).2
        simpa [Option.isNone_iff_eq_none] using this
      rcases (hitsWithin_iff _ _ _ _).mp hrhit with ⟨k2, hk2, hy2⟩
      have hr_step : chainIter l (k2 + 1) x.id = none := by
        have he : chainIter l (k2 + 1) x.id
            = (chainIter l k2 x.id).bind (stepParent l) := rfl
        rw [he, hy2]
        simp [stepParent, lookup_self l hnd r hrl, hrp]
      have hkk : k2 = k := by
        by_contra hne
        rcases Nat.lt_or_ge k2 k with hlt | hge
        · have hnone : chainIter l k x.id = none := by
            have := chain_none_succ l x.id (k2 + 1) (k - (k2 + 1)) hr_step
            rwa [show k2 + 1 + (k - (k2 + 1)) = k from by omega] at this
          rw [hnone] at hy
          cases hy
        · have hgt : k < k2 := by omega
          have hnone : chainIter l k2 x.id = none := by
            have := chain_none_succ l x.id (k + 1) (k2 - (k + 1)) hq_step
            rwa [show k + 1 + (k2 - (k + 1)) = k2 from by omega] at this
          rw [hnone] at hy2
          cases hy2
      subst hkk
      have hry : r.id = q.id := by
        rw [hy2] at hy
        exact (Option.some.inj hy).trans hqid.symm
      exact id_inj l hnd r hrl q hq hry
    have hroots_nodup : (l.filter (fun c => c.parent_id.isNone)).Nodup :=
      (List.Nodup.of_map _ hnd).filter _
    exact countP_eq_one_of_unique q hqroot hqhit huniq hroots_nodup
  · exfalso
    push_neg at hstuck
    have hsome : ∀ k, k ≤ l.length + 1 → ∃ y, chainIter l k x.id = some y := by
      intro k
      induction k with
      | zero => intro _; exact ⟨x.id, rfl⟩
      | succ k ihk =>
        intro hk
        rcases ihk (by omega) with ⟨y, hy⟩
        have hstep := hstuck k (by omega) y hy
        cases hsp : stepParent l y with
        | none => exact absurd hsp hstep
        | some z =>
          refine ⟨z, ?_⟩
          have he : chainIter l (k + 1) x.id
              = (chainIter l k x.id).bind (stepParent l) := rfl
          rw [he, hy]
          simpa using hsp
    have hcard := Finset.card_le_card_of_injOn
      (fun k => (chainIter l k x.id).getD "")
      (s := Finset.range (l.length + 2))
      (t := (l.map (fun c => c.id)).toFinset)
      (by
        intro k hk
        rw [Finset.mem_range] at hk
        rcases hsome k (by omega) with ⟨y, hy⟩
        rcases chain_closed l lvl hlvl k x hx y hy with ⟨⟨q, hq, hqid⟩, _⟩
        show (chainIter l k x.id).getD "" ∈ (l.map (fun c => c.id)).toFinset
        rw [hy]
        simp only [Option.getD_some]
        rw [List.mem_toFinset]
        exact hqid ▸ List.mem_map_of_mem _ hq)
      (by
        intro k1 hk1 k2 hk2 heq
        simp only [Finset.coe_range, Set.mem_Iio] at hk1 hk2
        rcases hsome k1 (by omega) with ⟨y1, hy1⟩
        rcases hsome k2 (by omega) with ⟨y2, hy2⟩
        have heq2 : (chainIter l k1 x.id).getD ""
            = (chainIter l k2 x.id).getD "" := heq
        rw [hy1, hy2] at heq2
        simp only [Option.getD_some] at heq2
        rcases chain_closed l lvl hlvl k1 x hx y1 hy1 with ⟨_, hl1⟩
        rcases chain_closed l lvl hlvl k2 x hx y2 hy2 with ⟨_, hl2⟩
        subst heq2
        omega)
    rw [Finset.card_range] at hcard
    have hle : (l.map (fun c => c.id)).toFinset.card ≤ l.length := by
      calc (l.map (fun c => c.id)).toFinset.card
          ≤ (l.map (fun c => c.id)).length := List.toFinset_card_le _
        _ = l.length := List.length_map _ _
    omega

lemma listSortedByName_of_pairwise : ∀ ts : List CategoryTree,
    List.Pairwise treeNameLe ts → listSortedByName ts = true := by
  intro ts
  induction ts with
  | nil => intro _; rfl
  | cons a ts ih =>
    intro hp
    cases ts with
    | nil => rfl
    | cons b rest =>
      unfold listSortedByName
      rw [Bool.and_eq_true]
      constructor
      · exact decide_eq_true
          ((List.pairwise_cons.mp hp).1 b (List.mem_cons_self _ _))
      · exact ih (List.pairwise_cons.mp hp).2

lemma treesChildrenSorted_iff : ∀ ts : List CategoryTree,
    treesChildrenSorted ts = true ↔ ∀ t ∈ ts, treeChildrenSorted t = true := by
  intro ts
  induction ts with
  | nil => simp [treesChildrenSorted]
  | cons t ts ih =>
    have he : treesChildrenSorted (t :: ts)
        = (treeChildrenSorted t && treesChildrenSorted ts) := rfl
    rw [he, Bool.and_eq_true, ih]
    constructor
    · rintro ⟨h1, h2⟩ u hu
      rcases List.mem_cons.mp hu with rfl | hu2
      · exact h1
      · exact h2 u hu2
    · intro h
      exact ⟨h t (List.mem_cons_self _ _),
        fun u hu => h u (List.mem_cons_of_mem _ hu)⟩

lemma build_sorted (l : List Category) :
    ∀ (fuel : Nat) (c : Category),
    treeChildrenSorted (build_category_tree_node l fuel c) = true := by
  intro fuel
  induction fuel with
  | zero => intro c; rfl
  | succ fuel ih =>
    intro c
    have he : treeChildrenSorted (build_category_tree_node l (fuel + 1) c)
        = (listSortedByName (List.insertionSort treeNameLe
            ((l.filter (fun d => d.parent_id == some c.id)).map
              (build_category_tree_node l fuel)))
          && treesChildrenSorted (List.insertionSort treeNameLe
            ((l.filter (fun d => d.parent_id == some c.id)).map
              (build_category_tree_node l fuel)))) := rfl
    rw [he, Bool.and_eq_true]
    constructor
    · exact listSortedByName_of_pairwise _
        (List.sorted_insertionSort treeNameLe _)
    · rw [treesChildrenSorted_iff]
      intro t ht
      rw [List.mem_insertionSort] at ht
      rcases List.mem_map.mp ht with ⟨d, _, rfl⟩
      exact ih d

/-- Orphan row: an active category whose parent is not in the fetched list
(for instance because the parent is inactive under the active-only filter). -/
def c3Orphan : Category :=
  { id := "a", name := "A", slug := "a", parent_id := some "zz",
    display_order := 0, is_active := true, is_featured := false,
    product_count := 0, view_count := 0 }

/-- Root of the sort-order counterexample. -/
def c3Root : Category :=
  { id := "r", name := "R", slug := "r", parent_id := none,
    display_order := 0, is_active := true, is_featured := false,
    product_count := 0, view_count := 0 }

/-- Child with the smaller display_order but the later name. -/
def c3ChildB : Category :=
  { id := "b", name := "B", slug := "b", parent_id := some "r",
    display_order := 1, is_active := true, is_featured := false,
    product_count := 0, view_count := 0 }

/-- Child with the larger display_order but the earlier name. -/
def c3ChildA : Category :=
  { id := "a2", name := "A", slug := "a2", parent_id := some "r",
    display_order := 2, is_active := true, is_featured := false,
    product_count := 0, view_count := 0 }

/-- C3 counterexample, refuting the claim as stated in both halves.  First,
on an input list containing one row whose parent_id does not occur in the
list, the built forest is empty, so its flattening misses the input id
entirely.  Second, with two siblings whose display_order order disagrees
with their name order, the builder emits the children sorted by name alone
(A before B) while the claimed (display_order, name) key demands B before A
— CategoryTree has no display_order field, so the hasattr fallback turns
the sort key into (0, name). -/
theorem c3_counterexample :
    (flattenTrees (build_tree [c3Orphan] false) = []
      ∧ [c3Orphan].map (fun c => c.id) = ["a"])
    ∧ ((build_tree [c3Root, c3ChildB, c3ChildA] false).map
        (fun t => t.children.map CategoryTree.name) = [["A", "B"]])
    ∧ ((List.insertionSort catOrd [c3ChildB, c3ChildA]).map
        (fun c => c.name) = ["B", "A"]) :=
  ⟨⟨rfl, rfl⟩, rfl, rfl⟩

/-- C3 amended: for a fetched row list whose ids are distinct and whose
parent graph is a forest contained in the list (without this, orphaned or
cyclic rows are silently dropped, as the counterexample shows), the
flattened built forest carries exactly the input ids, each exactly once;
and within every node the children are sorted ascending by name alone —
not by (display_order, name), since the CategoryTree schema has no
display_order attribute. -/
theorem c3_tree_flatten_amended (db : List Category) (active_only : Bool)
    (hnd : ((fetch_all_categories db active_only).map (fun c => c.id)).Nodup)
    (hforest : IsForest (fetch_all_categories db active_only)) :
    (flattenTrees (build_tree db active_only)).Perm
      ((fetch_all_categories db active_only).map (fun c => c.id))
    ∧ ∀ t ∈ build_tree db active_only, treeChildrenSorted t = true := by
  rcases hforest with ⟨lvl, hlvl⟩
  have hdict : dictById (fetch_all_categories db active_only)
      = fetch_all_categories db active_only :=
    dictByIdGo_nodup _ _ (le_refl _) hnd
  have htree0 : build_tree db active_only
      = ((fetch_all_categories db active_only).filter
          (fun c => c.parent_id.isNone)).map
        (build_category_tree_node
          (dictById (fetch_all_categories db active_only))
          (fetch_all_categories db active_only).length) := rfl
  have htree : build_tree db active_only
      = ((fetch_all_categories db active_only).filter
          (fun c => c.parent_id.isNone)).map
        (build_category_tree_node (fetch_all_categories db active_only)
          (fetch_all_categories db active_only).length) := by
    rw [htree0, hdict]
  constructor
  · rw [htree, List.perm_iff_count]
    intro a
    by_cases ha : a ∈ (fetch_all_categories db active_only).map
        (fun c => c.id)
    · rcases List.mem_map.mp ha with ⟨x, hxl, rfl⟩
      rw [count_forest _ lvl hnd hlvl x hxl]
      exact (List.count_eq_one_of_mem hnd ha).symm
    · rw [List.count_eq_zero_of_not_mem ha, List.count_eq_zero]
      intro habs
      rcases mem_flattenTrees_map _ a _ habs with ⟨r, hr, hra⟩
      rcases mem_flatten_build _ _ r (List.mem_of_mem_filter hr) a hra
        with ⟨d, hd, rfl⟩
      exact ha (List.mem_map_of_mem _ hd)
  · intro t ht
    rw [htree] at ht
    rcases List.mem_map.mp ht with ⟨r, _, rfl⟩
    exact build_sorted _ _ r

theorem c3_tree_flatten_amended_witness :
    (flattenTrees (build_tree [c9we, c9wp] true)).Perm
      ((fetch_all_categories [c9we, c9wp] true).map (fun c => c.id))
    ∧ ∀ t ∈ build_tree [c9we, c9wp] true, treeChildrenSorted t = true := by
  have hforest : IsForest (fetch_all_categories [c9we, c9wp] true) := by
    refine ⟨fun s => if s = "p" then 1 else 0, ?_⟩
    intro c hc p hp
    have hl : fetch_all_categories [c9we, c9wp] true = [c9we, c9wp] := rfl
    rw [hl] at hc
    rcases List.mem_cons.mp hc with rfl | hc2
    · exact absurd hp (by simp [c9we])
    · rcases List.mem_cons.mp hc2 with rfl | hc3
      · have hpe : p = "e" := by
          have : (some "e" : Option String) = some p := hp
          simpa using this.symm
        subst hpe
        refine ⟨⟨c9we, by rw [hl]; exact List.mem_cons_self _ _, rfl⟩, ?_⟩
        decide
      · cases hc3
  exact c3_tree_flatten_amended [c9we, c9wp] true (by decide) hforest

end ECommerce
